import Mathlib

/-!
Verification of the large-object scanner and `.gitattributes` pattern
synthesizer of the `git_lfs` repository (files `git_lfs.py` and
`git_lfs_test.py`).

Paths, patterns and file contents are modelled as `List Char` (Python `str`).
Machine integers are modelled as `Int`/`Nat` (Python ints are unbounded, so no
wrap-around is needed).
-/

abbrev Str := List Char

/-! ## Python string/path primitives used by the source -/

/-- Index of the last occurrence of `c` in `s` (Python `str.rfind`, as an
`Option` instead of `-1`). -/
def lastIdxOf (c : Char) : Str → Option Nat
  | [] => none
  | x :: xs =>
    match lastIdxOf c xs with
    | some i => some (i + 1)
    | none => if x = c then some 0 else none

/-- The extension part (with leading dot) of `os.path.splitext` applied to a
filename containing no slash: the suffix from the last dot, unless every
character before that dot is itself a dot (then there is no extension). -/
def splitextExt (s : Str) : Str :=
  match lastIdxOf '.' s with
  | none => []
  | some d => if (s.take d).all (· = '.') then [] else s.drop d

/-- `posixpath.basename`: the suffix after the last slash. -/
def pathBasename (p : Str) : Str :=
  match lastIdxOf '/' p with
  | none => p
  | some i => p.drop (i + 1)

/-- `posixpath.dirname`: the prefix up to the last slash, with trailing
slashes stripped unless the prefix is all slashes. -/
def pathDirname (p : Str) : Str :=
  match lastIdxOf '/' p with
  | none => []
  | some i =>
    let head := p.take (i + 1)
    if head.all (· = '/') then head
    else (head.reverse.dropWhile (· = '/')).reverse

/-- Characters removed by Python `str.strip()` (ASCII whitespace; the source
only ever produces ASCII around patterns). -/
def isPySpace (c : Char) : Bool :=
  c = ' ' || c = '\t' || c = '\n' || c = '\r' || c = '\x0b' || c = '\x0c'

/-- Python `str.strip()`. -/
def pyStrip (l : Str) : Str :=
  ((l.dropWhile isPySpace).reverse.dropWhile isPySpace).reverse

/-- Python substring containment `pat in l`. -/
def containsSub (l pat : Str) : Bool :=
  match l with
  | [] => pat.isEmpty
  | _ :: rest => pat.isPrefixOf l || containsSub rest pat

/-- The part of `l` before the first occurrence of `pat`
(Python `l.split(pat)[0]`, for nonempty `pat`; `l` itself if absent). -/
def prefixBefore (l pat : Str) : Str :=
  match l with
  | [] => []
  | c :: rest => if pat.isPrefixOf l then [] else c :: prefixBefore rest pat

/-- Split on newline characters (Python text-file line iteration, with the
terminators dropped; a trailing empty piece is harmless because every use
filters lines on substring containment). -/
def splitOnNl : Str → List Str
  | [] => [[]]
  | c :: rest =>
    if c = '\n' then [] :: splitOnNl rest
    else
      match splitOnNl rest with
      | l :: ls => (c :: l) :: ls
      | [] => [[c]]

/-- Python string comparison `a <= b` (lexicographic by code point). -/
def pathLe : Str → Str → Bool
  | [], _ => true
  | _ :: _, [] => false
  | a :: as, b :: bs =>
    decide (a.toNat < b.toNat) || (decide (a.toNat = b.toNat) && pathLe as bs)

/-- Insertion into a `le`-sorted list. -/
def insertLe (le : α → α → Bool) (x : α) : List α → List α
  | [] => [x]
  | y :: ys => if le x y then x :: y :: ys else y :: insertLe le x ys

/-- Insertion sort (models Python `sorted`/`list.sort`: total preorder key,
stable for the uses made of it). -/
def sortLe (le : α → α → Bool) (l : List α) : List α :=
  l.foldr (insertLe le) []

/-! ## Pattern synthesizer: `GitLFS.create_gitattributes` (git_lfs.py:616-695) -/

/-- The marker substring used to recognize existing tracked-pattern lines. -/
def lfsMarker : Str := "filter=lfs".toList

/-- The fixed attribute suffix written after each pattern. -/
def attrSuffix : Str := " filter=lfs diff=lfs merge=lfs -text".toList

/-- One written attributes line: `<pattern> filter=lfs diff=lfs merge=lfs -text\n`. -/
def attrLine (p : Str) : Str := p ++ attrSuffix ++ ['\n']

/-- Existing-pattern extraction (git_lfs.py:630-635): every line containing
`filter=lfs` contributes the stripped part of the line before that marker. -/
def parseExisting (content : Str) : List Str :=
  (splitOnNl content).filterMap fun line =>
    if containsSub line lfsMarker then some (pyStrip (prefixBefore line lfsMarker))
    else none

/-- Candidate patterns for one file path (git_lfs.py:642-665): with an
extension, `*.<ext>` plus `<dir>/*.<ext>` when the directory is nonempty;
without an extension, the literal path.  (The source accumulates these into a
set, so list order is irrelevant.) -/
def candidates (file_path : Str) : List Str :=
  let dir_path := pathDirname file_path
  let filename := pathBasename file_path
  let ext0 := splitextExt filename
  if ext0 ≠ [] then
    let ext := ext0.dropWhile (· = '.')
    let globPat := '*' :: '.' :: ext
    if dir_path ≠ [] then [globPat, dir_path ++ '/' :: globPat]
    else [globPat]
  else [file_path]

/-- All candidate patterns of a scan result (the `new_patterns` set). -/
def newPatterns (files : List Str) : List Str :=
  (files.flatMap candidates).dedup

/-- `patterns_to_add = sorted(list(new_patterns - existing_patterns))`
(git_lfs.py:678). -/
def patternsToAdd (content : Str) (files : List Str) : List Str :=
  sortLe pathLe ((newPatterns files).filter fun p =>
    decide (p ∉ parseExisting content))

/-- `GitLFS.create_gitattributes` (git_lfs.py:616-695) acting on the
attributes-file content: appends nothing when there is nothing to add,
otherwise appends a newline separator when the existing content is nonempty
(git_lfs.py:683-684) followed by one attribute line per new pattern in sorted
order. -/
def create_gitattributes (content : Str) (files : List Str) : Str :=
  let toAdd := patternsToAdd content files
  if toAdd = [] then content
  else
    content ++ (if content = [] then [] else ['\n']) ++ toAdd.flatMap attrLine

example : candidates "assets/video/intro.mp4".toList =
    ["*.mp4".toList, "assets/video/*.mp4".toList] := by decide
example : candidates "tools/payload".toList = ["tools/payload".toList] := by decide
example : candidates "x.zip".toList = ["*.zip".toList] := by decide
example : parseExisting (attrLine "*.mp4".toList) = ["*.mp4".toList] := by decide
example : create_gitattributes [] ["x.zip".toList] = attrLine "*.zip".toList := by
  decide

/-! ## History scanner: `find_large_files_in_history` (git_lfs_test.py:17-145)

The repository walk itself is performed by the external VCS library; the
embedding takes the data that walk hands to the scanner: for each commit, the
tree entries traversed when the commit has no parents, and per parent either
`none` (the diff command failed for that pair, `GitCommandError`) or the list
of diff entries, each with optional `a`/`b` blob (path and size; an absent
blob also models a blob whose size lookup raised and was skipped). -/

structure TreeEntry where
  typ : Str
  path : Str
  size : Nat
deriving DecidableEq

structure BlobRef where
  path : Str
  size : Nat
deriving DecidableEq

structure DiffEntry where
  a : Option BlobRef
  b : Option BlobRef
deriving DecidableEq

structure Commit where
  tree : List TreeEntry
  diffs : List (Option (List DiffEntry))
deriving DecidableEq

/-- The `file_sizes` dict update (git_lfs_test.py:55-62 etc.): insert `p` with
size `s` when absent, or overwrite when `s` is strictly larger; a Python dict
keeps insertion order, so an update leaves the key position unchanged and a
new key goes to the end. -/
def updateMax : List (Str × Nat) → Str → Nat → List (Str × Nat)
  | [], p, s => [(p, s)]
  | (q, t) :: rest, p, s =>
    if q = p then (if s > t then (q, s) :: rest else (q, t) :: rest)
    else (q, t) :: updateMax rest p s

/-- Record one observed (path, size) pair: update `file_sizes` only when the
size strictly exceeds the byte threshold (`size > size_threshold`,
git_lfs_test.py:53,78,95). -/
def recordObs (θ : Int) (st : List (Str × Nat)) (p : Str) (s : Nat) :
    List (Str × Nat) :=
  if θ < (s : Int) then updateMax st p s else st

/-- Root-commit tree traversal (git_lfs_test.py:49-64): only entries of type
`blob` are considered. -/
def scanTree (θ : Int) (st : List (Str × Nat)) (es : List TreeEntry) :
    List (Str × Nat) :=
  es.foldl (fun st e =>
    if e.typ = "blob".toList then recordObs θ st e.path e.size else st) st

/-- One diff entry (git_lfs_test.py:72-106): the `a` blob then the `b` blob. -/
def scanDiffEntry (θ : Int) (st : List (Str × Nat)) (d : DiffEntry) :
    List (Str × Nat) :=
  let st1 := match d.a with
    | some ab => recordObs θ st ab.path ab.size
    | none => st
  match d.b with
  | some bb => recordObs θ st1 bb.path bb.size
  | none => st1

/-- One parent comparison (git_lfs_test.py:68-116): a failed diff (`none`,
`GitCommandError`) is skipped and contributes nothing. -/
def scanParent (θ : Int) (st : List (Str × Nat))
    (d? : Option (List DiffEntry)) : List (Str × Nat) :=
  match d? with
  | none => st
  | some ds => ds.foldl (scanDiffEntry θ) st

/-- One commit (git_lfs_test.py:46-120): the full tree for a parentless
commit, otherwise one comparison per parent. -/
def scanCommit (θ : Int) (st : List (Str × Nat)) (c : Commit) :
    List (Str × Nat) :=
  if c.diffs = [] then scanTree θ st c.tree
  else c.diffs.foldl (scanParent θ) st

/-- The commit loop (git_lfs_test.py:42-120), from an arbitrary starting
`file_sizes` state. -/
def scanFrom (θ : Int) (st : List (Str × Nat)) (cs : List Commit) :
    List (Str × Nat) :=
  cs.foldl (scanCommit θ) st

/-- The final `file_sizes` association (insertion-ordered) of a history scan
with byte threshold `θ`. -/
def scanHistory (cs : List Commit) (θ : Int) : List (Str × Nat) :=
  scanFrom θ [] cs

/-- All (path, size) observations a scan makes, in scan order: root-commit
blob tree entries, and per-parent diff entries (`a` then `b` blob). -/
def diffObs (d : DiffEntry) : List (Str × Nat) :=
  (match d.a with | some ab => [(ab.path, ab.size)] | none => []) ++
  (match d.b with | some bb => [(bb.path, bb.size)] | none => [])

def treeObs (es : List TreeEntry) : List (Str × Nat) :=
  es.filterMap fun e =>
    if e.typ = "blob".toList then some (e.path, e.size) else none

def commitObs (c : Commit) : List (Str × Nat) :=
  if c.diffs = [] then treeObs c.tree
  else c.diffs.flatMap fun d? => (d?.getD []).flatMap diffObs

def observations (cs : List Commit) : List (Str × Nat) :=
  cs.flatMap commitObs

/-- `round(size / (1024 * 1024), 2)` in hundredths of a megabyte: the exact
rational `100 * size / 2^20` rounded half-to-even.  For any realistic size
(`size < 2^53`) the Python float `size / (1024*1024)` is exact (the
denominator is a power of two), so this models the source's rounding
exactly. -/
def sizeMBHundredths (size : Nat) : Nat :=
  let n := size * 100
  let q := n / 1048576
  let r := n % 1048576
  if r > 524288 then q + 1
  else if r < 524288 then q
  else if q % 2 = 0 then q else q + 1

/-- One entry of the returned list (git_lfs_test.py:123-130): the path and
the rounded `size_mb` (in hundredths); the commit metadata carried alongside
plays no role in any claim. -/
structure LargeFileRec where
  path : Str
  size_mb_h : Nat
deriving DecidableEq

/-- Descending comparison on the rounded `size_mb` sort key
(`sort(key=..., reverse=True)`, git_lfs_test.py:133). -/
def recGe (x y : LargeFileRec) : Bool := Nat.ble y.size_mb_h x.size_mb_h

/-- `find_large_files_in_history` (git_lfs_test.py:17-145): scan all commits
with byte threshold `mb * 1024 * 1024`, convert the `file_sizes` dict to a
list in insertion order, and sort it by rounded `size_mb` descending (Python
`list.sort` is stable). -/
def find_large_files_in_history (cs : List Commit) (size_threshold_mb : Int) :
    List LargeFileRec :=
  let st := scanHistory cs (size_threshold_mb * (1024 * 1024))
  sortLe recGe (st.map fun x => ⟨x.1, sizeMBHundredths x.2⟩)

/-! ## Library fallback scanner: `GitLFS.find_large_files` (git_lfs.py:485-570)

Models the Unix pipeline branch used when `git-sizer` is unavailable:
`git rev-list --all --objects | git cat-file --batch-check | grep blob |
sort -k3 -nr | head -n 100`, then parse and keep entries with
`size_bytes >= threshold_bytes`.  The embedding takes the listing the
pipeline's first two stages produce, restricted to blob lines (the `grep
blob` stage), with object hash, byte size, and path per entry; `sort -k3 -nr`
is numeric-descending on the size field and `head` keeps at most 100
lines. -/

structure ObjListEntry where
  hash : Str
  size : Nat
  path : Str
deriving DecidableEq

def entryGe (x y : ObjListEntry) : Bool := Nat.ble y.size x.size

structure FoundFile where
  path : Str
  size_bytes : Nat
  size_mb_h : Nat
  hash : Str
deriving DecidableEq

/-- `GitLFS.find_large_files` fallback path (git_lfs.py:512-570). -/
def find_large_files (listing : List ObjListEntry)
    (size_threshold_mb : Int) : List FoundFile :=
  let threshold_bytes := size_threshold_mb * (1024 * 1024)
  let top := (sortLe entryGe listing).take 100
  top.filterMap fun e =>
    if threshold_bytes ≤ (e.size : Int) then
      some ⟨e.path, e.size, sizeMBHundredths e.size, e.hash⟩
    else none

/-! ## Repository check: `GitLFS.__init__` (git_lfs.py:15-38) -/

structure InitResult where
  constructed : Bool
  warnedInvalidRepo : Bool
deriving DecidableEq

/-- The repository verification in `GitLFS.__init__` (git_lfs.py:36-38): when
`<repo>/.git` does not exist it only logs a warning that the path may not be
a valid repository and that operations may fail; the object is constructed
either way and nothing is raised. -/
def gitlfs_init_check (dotGitExists : Bool) : InitResult :=
  ⟨true, !dotGitExists⟩

example :
    find_large_files_in_history
      [⟨[⟨"blob".toList, "a".toList, 2097152⟩,
         ⟨"blob".toList, "b".toList, 2097153⟩], []⟩] 1 =
      [⟨"a".toList, 200⟩, ⟨"b".toList, 200⟩] := by decide
example : scanHistory [⟨[⟨"blob".toList, "a".toList, 2097152⟩,
    ⟨"blob".toList, "b".toList, 2097153⟩], []⟩] 1048576 =
    [("a".toList, 2097152), ("b".toList, 2097153)] := by decide

/-! ## Order facts for the two sort keys -/

theorem pathLe_total : ∀ a b : Str, pathLe a b = true ∨ pathLe b a = true := by
  intro a
  induction a with
  | nil => intro b; left; rfl
  | cons x xs ih =>
    intro b
    cases b with
    | nil => right; rfl
    | cons y ys =>
      simp only [pathLe, Bool.or_eq_true, Bool.and_eq_true, decide_eq_true_eq]
      rcases Nat.lt_trichotomy x.toNat y.toNat with h | h | h
      · exact Or.inl (Or.inl h)
      · rcases ih ys with h' | h'
        · exact Or.inl (Or.inr ⟨h, h'⟩)
        · exact Or.inr (Or.inr ⟨h.symm, h'⟩)
      · exact Or.inr (Or.inl h)

theorem pathLe_trans : ∀ a b c : Str,
    pathLe a b = true → pathLe b c = true → pathLe a c = true := by
  intro a
  induction a with
  | nil => intro b c _ _; rfl
  | cons x xs ih =>
    intro b c hab hbc
    cases b with
    | nil => simp [pathLe] at hab
    | cons y ys =>
      cases c with
      | nil => simp [pathLe] at hbc
      | cons z zs =>
        simp only [pathLe, Bool.or_eq_true, Bool.and_eq_true,
          decide_eq_true_eq] at hab hbc ⊢
        rcases hab with h1 | h1
        · rcases hbc with h2 | h2
          · exact Or.inl (Nat.lt_trans h1 h2)
          · exact Or.inl (h2.1 ▸ h1)
        · rcases hbc with h2 | h2
          · exact Or.inl (h1.1 ▸ h2)
          · exact Or.inr ⟨h1.1.trans h2.1, ih ys zs h1.2 h2.2⟩

theorem recGe_total (x y : LargeFileRec) : recGe x y = true ∨ recGe y x = true := by
  simp only [recGe, Nat.ble_eq]
  exact Nat.le_total y.size_mb_h x.size_mb_h

theorem recGe_trans (x y z : LargeFileRec) :
    recGe x y = true → recGe y z = true → recGe x z = true := by
  simp only [recGe, Nat.ble_eq]
  exact fun h1 h2 => h2.trans h1

theorem entryGe_total (x y : ObjListEntry) :
    entryGe x y = true ∨ entryGe y x = true := by
  simp only [entryGe, Nat.ble_eq]
  exact Nat.le_total y.size x.size

/-! ## Insertion-sort lemmas -/

theorem insertLe_perm (le : α → α → Bool) (x : α) :
    ∀ l : List α, List.Perm (insertLe le x l) (x :: l) := by
  intro l
  induction l with
  | nil => exact List.Perm.refl _
  | cons y ys ih =>
    simp only [insertLe]
    by_cases h : le x y = true
    · rw [if_pos h]
    · rw [if_neg h]
      exact (ih.cons y).trans (List.Perm.swap x y ys)

theorem sortLe_perm (le : α → α → Bool) (l : List α) :
    List.Perm (sortLe le l) l := by
  induction l with
  | nil => exact List.Perm.refl _
  | cons x xs ih =>
    exact (insertLe_perm le x (sortLe le xs)).trans (ih.cons x)

theorem mem_sortLe (le : α → α → Bool) (l : List α) (a : α) :
    a ∈ sortLe le l ↔ a ∈ l :=
  (sortLe_perm le l).mem_iff

theorem insertLe_pairwise (le : α → α → Bool)
    (htot : ∀ a b, le a b = true ∨ le b a = true)
    (htrans : ∀ a b c, le a b = true → le b c = true → le a c = true)
    (x : α) : ∀ l : List α, l.Pairwise (fun a b => le a b = true) →
      (insertLe le x l).Pairwise (fun a b => le a b = true) := by
  intro l
  induction l with
  | nil => intro _; simp [insertLe]
  | cons y ys ih =>
    intro h
    rcases List.pairwise_cons.1 h with ⟨hy, hys⟩
    simp only [insertLe]
    by_cases hxy : le x y = true
    · rw [if_pos hxy]
      refine List.pairwise_cons.2 ⟨?_, h⟩
      intro z hz
      rcases List.mem_cons.1 hz with hzy | hz'
      · rw [hzy]; exact hxy
      · exact htrans x y z hxy (hy z hz')
    · rw [if_neg hxy]
      refine List.pairwise_cons.2 ⟨?_, ih hys⟩
      intro z hz
      rcases List.mem_cons.1 ((insertLe_perm le x ys).mem_iff.1 hz) with hzx | hz'
      · rcases htot x y with h' | h'
        · exact absurd h' hxy
        · rw [hzx]; exact h'
      · exact hy z hz'

theorem sortLe_pairwise (le : α → α → Bool)
    (htot : ∀ a b, le a b = true ∨ le b a = true)
    (htrans : ∀ a b c, le a b = true → le b c = true → le a c = true)
    (l : List α) : (sortLe le l).Pairwise (fun a b => le a b = true) := by
  induction l with
  | nil => simp [sortLe]
  | cons x xs ih => exact insertLe_pairwise le htot htrans x (sortLe le xs) ih

/-! ## `file_sizes` dict lemmas -/

/-- First-occurrence association lookup (Python dict access). -/
def lookupFirst : List (Str × Nat) → Str → Option Nat
  | [], _ => none
  | (q, t) :: rest, p => if q = p then some t else lookupFirst rest p

theorem lookupFirst_eq_none : ∀ (st : List (Str × Nat)) (p : Str),
    lookupFirst st p = none ↔ p ∉ st.map Prod.fst := by
  intro st p
  induction st with
  | nil => simp [lookupFirst]
  | cons e rest ih =>
    obtain ⟨q, t⟩ := e
    simp only [lookupFirst, List.map_cons, List.mem_cons]
    by_cases h : q = p
    · subst h
      simp
    · rw [if_neg h, ih]
      constructor
      · intro hn hc
        rcases hc with hc | hc
        · exact h hc.symm
        · exact hn hc
      · intro hn hc
        exact hn (Or.inr hc)

theorem lookupFirst_updateMax :
    ∀ (st : List (Str × Nat)) (q : Str) (u : Nat) (p : Str),
    lookupFirst (updateMax st q u) p =
      if q = p then
        some (match lookupFirst st q with
              | none => u
              | some t => if t < u then u else t)
      else lookupFirst st p := by
  intro st q u
  induction st with
  | nil =>
    intro p
    by_cases h : q = p
    · rw [if_pos h]
      simp [updateMax, lookupFirst, h]
    · rw [if_neg h]
      simp [updateMax, lookupFirst, h]
  | cons e rest ih =>
    intro p
    obtain ⟨a, b⟩ := e
    by_cases haq : a = q
    · subst haq
      by_cases hbu : u > b
      · by_cases hap : a = p <;> simp [updateMax, lookupFirst, hap, hbu]
      · by_cases hap : a = p <;> simp [updateMax, lookupFirst, hap, hbu]
    · by_cases hap : a = p
      · have hqp : ¬ q = p := fun h => haq (hap.trans h.symm)
        have hpq : ¬ p = q := fun h => hqp h.symm
        simp [updateMax, lookupFirst, haq, hap, hqp, hpq]
      · simp [updateMax, lookupFirst, haq, hap, ih p]

theorem updateMax_map_fst : ∀ (st : List (Str × Nat)) (q : Str) (u : Nat),
    (updateMax st q u).map Prod.fst =
      if q ∈ st.map Prod.fst then st.map Prod.fst
      else st.map Prod.fst ++ [q] := by
  intro st q u
  induction st with
  | nil => simp [updateMax]
  | cons e rest ih =>
    obtain ⟨a, b⟩ := e
    simp only [updateMax, List.map_cons]
    by_cases haq : a = q
    · subst haq
      rw [if_pos (List.mem_cons_self a (rest.map Prod.fst))]
      by_cases hbu : u > b
      · rw [if_pos hbu]
        simp
      · rw [if_neg hbu]
        simp
    · rw [if_neg haq]
      have hqa : ¬ q = a := fun h => haq h.symm
      by_cases hmem : q ∈ rest.map Prod.fst
      · rw [if_pos (List.mem_cons_of_mem a hmem)]
        simp only [List.map_cons, ih, if_pos hmem]
      · have : q ∉ a :: rest.map Prod.fst := by
          intro hc
          rcases List.mem_cons.1 hc with hc | hc
          · exact hqa hc
          · exact hmem hc
        rw [if_neg this]
        simp only [List.map_cons, ih, if_neg hmem, List.cons_append]

theorem updateMax_nodup (st : List (Str × Nat)) (q : Str) (u : Nat)
    (h : (st.map Prod.fst).Nodup) : ((updateMax st q u).map Prod.fst).Nodup := by
  rw [updateMax_map_fst]
  by_cases hmem : q ∈ st.map Prod.fst
  · rw [if_pos hmem]
    exact h
  · rw [if_neg hmem]
    refine List.Nodup.append h (List.nodup_singleton q) ?_
    intro a ha hb
    rw [List.mem_singleton] at hb
    exact hmem (hb ▸ ha)

theorem mem_iff_lookupFirst : ∀ (st : List (Str × Nat)),
    (st.map Prod.fst).Nodup →
    ∀ p s, (p, s) ∈ st ↔ lookupFirst st p = some s := by
  intro st
  induction st with
  | nil =>
    intro _ p s
    simp [lookupFirst]
  | cons e rest ih =>
    intro h p s
    obtain ⟨a, b⟩ := e
    simp only [List.map_cons, List.nodup_cons] at h
    obtain ⟨hna, hnr⟩ := h
    simp only [List.mem_cons, lookupFirst, Prod.mk.injEq]
    by_cases hap : a = p
    · subst hap
      rw [if_pos rfl]
      constructor
      · rintro (⟨_, hs⟩ | hm)
        · rw [hs]
        · exact absurd (List.mem_map.2 ⟨(a, s), hm, rfl⟩) hna
      · intro he
        exact Or.inl ⟨rfl, (Option.some.injEq b s ▸ he).symm⟩
    · rw [if_neg hap, ← ih hnr p s]
      constructor
      · rintro (⟨hp, _⟩ | hm)
        · exact absurd hp.symm hap
        · exact hm
      · exact Or.inr

theorem updateMax_persist :
    ∀ (st : List (Str × Nat)) (q : Str) (u : Nat) (p : Str) (s : Nat),
    (p, s) ∈ st → ∃ s', s ≤ s' ∧ (p, s') ∈ updateMax st q u := by
  intro st q u
  induction st with
  | nil =>
    intro p s h
    cases h
  | cons e rest ih =>
    intro p s h
    obtain ⟨a, b⟩ := e
    simp only [updateMax]
    rcases List.mem_cons.1 h with he | hm
    · obtain ⟨hp, hs⟩ := Prod.mk.injEq .. ▸ he
      subst hp
      subst hs
      by_cases haq : p = q
      · rw [if_pos haq]
        by_cases hbu : u > s
        · rw [if_pos hbu]
          exact ⟨u, le_of_lt hbu, List.mem_cons_self _ _⟩
        · rw [if_neg hbu]
          exact ⟨s, le_refl s, List.mem_cons_self _ _⟩
      · rw [if_neg haq]
        exact ⟨s, le_refl s, List.mem_cons_self _ _⟩
    · by_cases haq : a = q
      · rw [if_pos haq]
        by_cases hbu : u > b
        · rw [if_pos hbu]
          exact ⟨s, le_refl s, List.mem_cons_of_mem _ hm⟩
        · rw [if_neg hbu]
          exact ⟨s, le_refl s, List.mem_cons_of_mem _ hm⟩
      · rw [if_neg haq]
        obtain ⟨s', h1, h2⟩ := ih p s hm
        exact ⟨s', h1, List.mem_cons_of_mem _ h2⟩

/-! ## Collapsing the scan to its observation stream -/

/-- Processing a plain stream of (path, size) observations. -/
def scanObs (θ : Int) (st : List (Str × Nat)) (l : List (Str × Nat)) :
    List (Str × Nat) :=
  l.foldl (fun st o => recordObs θ st o.1 o.2) st

theorem scanObs_append (θ : Int) (st : List (Str × Nat))
    (l1 l2 : List (Str × Nat)) :
    scanObs θ st (l1 ++ l2) = scanObs θ (scanObs θ st l1) l2 := by
  simp [scanObs]

theorem scanTree_eq (θ : Int) : ∀ (es : List TreeEntry) (st : List (Str × Nat)),
    scanTree θ st es = scanObs θ st (treeObs es) := by
  intro es
  induction es with
  | nil => intro st; rfl
  | cons e es ih =>
    intro st
    simp only [scanTree, List.foldl_cons, treeObs, List.filterMap_cons]
    by_cases h : e.typ = "blob".toList
    · rw [if_pos h, if_pos h]
      exact ih (recordObs θ st e.path e.size)
    · rw [if_neg h, if_neg h]
      exact ih st

theorem scanDiffEntry_eq (θ : Int) (st : List (Str × Nat)) (d : DiffEntry) :
    scanDiffEntry θ st d = scanObs θ st (diffObs d) := by
  obtain ⟨a?, b?⟩ := d
  cases a? <;> cases b? <;> rfl

theorem scanParent_eq (θ : Int) :
    ∀ (d? : Option (List DiffEntry)) (st : List (Str × Nat)),
    scanParent θ st d? = scanObs θ st ((d?.getD []).flatMap diffObs) := by
  intro d?
  cases d? with
  | none => intro st; rfl
  | some ds =>
    induction ds with
    | nil => intro st; rfl
    | cons d ds ih =>
      intro st
      simp only [scanParent, List.foldl_cons, Option.getD_some,
        List.flatMap_cons]
      rw [scanObs_append, ← scanDiffEntry_eq]
      exact ih (scanDiffEntry θ st d)

theorem foldl_scanParent_eq (θ : Int) :
    ∀ (ps : List (Option (List DiffEntry))) (st : List (Str × Nat)),
    ps.foldl (scanParent θ) st =
      scanObs θ st (ps.flatMap fun d? => (d?.getD []).flatMap diffObs) := by
  intro ps
  induction ps with
  | nil => intro st; rfl
  | cons d? ps ih =>
    intro st
    simp only [List.foldl_cons, List.flatMap_cons]
    rw [scanObs_append, ← scanParent_eq]
    exact ih (scanParent θ st d?)

theorem scanCommit_eq (θ : Int) (st : List (Str × Nat)) (c : Commit) :
    scanCommit θ st c = scanObs θ st (commitObs c) := by
  by_cases h : c.diffs = []
  · simp only [scanCommit, commitObs, if_pos h]
    exact scanTree_eq θ c.tree st
  · simp only [scanCommit, commitObs, if_neg h]
    exact foldl_scanParent_eq θ c.diffs st

theorem scanFrom_eq (θ : Int) : ∀ (cs : List Commit) (st : List (Str × Nat)),
    scanFrom θ st cs = scanObs θ st (observations cs) := by
  intro cs
  induction cs with
  | nil => intro st; rfl
  | cons c cs ih =>
    intro st
    simp only [scanFrom, List.foldl_cons, observations, List.flatMap_cons]
    rw [scanObs_append, ← scanCommit_eq]
    exact ih (scanCommit θ st c)

theorem scanHistory_eq (cs : List Commit) (θ : Int) :
    scanHistory cs θ = scanObs θ [] (observations cs) :=
  scanFrom_eq θ cs []

/-! ## The scan invariant -/

/-- After processing the observation stream `obs`, the state has no duplicate
paths, every stored (path, size) pair is an observation strictly above the
threshold that dominates every observation of its path, and every
above-threshold observation has its path stored. -/
def ScanInv (θ : Int) (obs st : List (Str × Nat)) : Prop :=
  (st.map Prod.fst).Nodup ∧
  (∀ p s, (p, s) ∈ st →
    (p, s) ∈ obs ∧ θ < (s : Int) ∧ ∀ s', (p, s') ∈ obs → s' ≤ s) ∧
  (∀ p s, (p, s) ∈ obs → θ < (s : Int) → p ∈ st.map Prod.fst)

theorem ScanInv_nil (θ : Int) : ScanInv θ [] [] := by
  refine ⟨List.nodup_nil, ?_, ?_⟩
  · intro p s h
    cases h
  · intro p s h
    cases h

theorem ScanInv_recordObs (θ : Int) (obs st : List (Str × Nat)) (q : Str) (u : Nat)
    (h : ScanInv θ obs st) : ScanInv θ (obs ++ [(q, u)]) (recordObs θ st q u) := by
  obtain ⟨hnd, hmem, hcov⟩ := h
  by_cases hu : θ < (u : Int)
  · rw [recordObs, if_pos hu]
    have hnd' := updateMax_nodup st q u hnd
    refine ⟨hnd', ?_, ?_⟩
    · intro p s hps
      rw [mem_iff_lookupFirst _ hnd' p s, lookupFirst_updateMax] at hps
      by_cases hqp : q = p
      · subst hqp
        rw [if_pos rfl] at hps
        cases hlq : lookupFirst st q with
        | none =>
          rw [hlq] at hps
          have hsu : s = u := (Option.some.inj hps).symm
          subst hsu
          have hqnotin : q ∉ st.map Prod.fst := (lookupFirst_eq_none st q).1 hlq
          refine ⟨List.mem_append_right _ (List.mem_singleton.2 rfl), hu, ?_⟩
          intro s' hs'
          rcases List.mem_append.1 hs' with hs' | hs'
          · by_cases hθ : θ < (s' : Int)
            · exact absurd (hcov q s' hs' hθ) hqnotin
            · omega
          · rw [List.mem_singleton] at hs'
            exact ((Prod.ext_iff.1 hs').2).le
        | some t =>
          rw [hlq] at hps
          have hps2 : some (if t < u then u else t) = some s := hps
          have ht : (q, t) ∈ st := (mem_iff_lookupFirst st hnd q t).2 hlq
          obtain ⟨htobs, hθt, htmax⟩ := hmem q t ht
          by_cases htu : t < u
          · rw [if_pos htu] at hps2
            have hsu : s = u := (Option.some.inj hps2).symm
            subst hsu
            refine ⟨List.mem_append_right _ (List.mem_singleton.2 rfl), hu, ?_⟩
            intro s' hs'
            rcases List.mem_append.1 hs' with hs' | hs'
            · exact (htmax s' hs').trans htu.le
            · rw [List.mem_singleton] at hs'
              exact ((Prod.ext_iff.1 hs').2).le
          · rw [if_neg htu] at hps2
            have hst : s = t := (Option.some.inj hps2).symm
            subst hst
            refine ⟨List.mem_append_left _ htobs, hθt, ?_⟩
            intro s' hs'
            rcases List.mem_append.1 hs' with hs' | hs'
            · exact htmax s' hs'
            · rw [List.mem_singleton] at hs'
              have : s' = u := (Prod.ext_iff.1 hs').2
              omega
      · rw [if_neg hqp] at hps
        have hpsSt : (p, s) ∈ st := (mem_iff_lookupFirst st hnd p s).2 hps
        obtain ⟨hobs, hθs, hmax⟩ := hmem p s hpsSt
        refine ⟨List.mem_append_left _ hobs, hθs, ?_⟩
        intro s' hs'
        rcases List.mem_append.1 hs' with hs' | hs'
        · exact hmax s' hs'
        · rw [List.mem_singleton] at hs'
          exact absurd (Prod.ext_iff.1 hs').1 (fun hc => hqp hc.symm)
    · intro p s hps hθ
      rw [updateMax_map_fst]
      rcases List.mem_append.1 hps with hps | hps
      · have hin := hcov p s hps hθ
        by_cases hq : q ∈ st.map Prod.fst
        · rw [if_pos hq]
          exact hin
        · rw [if_neg hq]
          exact List.mem_append_left _ hin
      · rw [List.mem_singleton] at hps
        have hpq : p = q := (Prod.ext_iff.1 hps).1
        subst hpq
        by_cases hq : p ∈ st.map Prod.fst
        · rw [if_pos hq]
          exact hq
        · rw [if_neg hq]
          exact List.mem_append_right _ (List.mem_singleton.2 rfl)
  · rw [recordObs, if_neg hu]
    refine ⟨hnd, ?_, ?_⟩
    · intro p s hps
      obtain ⟨hobs, hθs, hmax⟩ := hmem p s hps
      refine ⟨List.mem_append_left _ hobs, hθs, ?_⟩
      intro s' hs'
      rcases List.mem_append.1 hs' with hs' | hs'
      · exact hmax s' hs'
      · rw [List.mem_singleton] at hs'
        have hsu : s' = u := (Prod.ext_iff.1 hs').2
        omega
    · intro p s hps hθ
      rcases List.mem_append.1 hps with hps | hps
      · exact hcov p s hps hθ
      · rw [List.mem_singleton] at hps
        have hsu : s = u := (Prod.ext_iff.1 hps).2
        exact absurd (hsu ▸ hθ) hu

theorem ScanInv_scanObs (θ : Int) : ∀ (l obs st : List (Str × Nat)),
    ScanInv θ obs st → ScanInv θ (obs ++ l) (scanObs θ st l) := by
  intro l
  induction l with
  | nil =>
    intro obs st h
    simpa using h
  | cons o l ih =>
    intro obs st h
    have h1 := ScanInv_recordObs θ obs st o.1 o.2 h
    rw [Prod.mk.eta] at h1
    have h2 := ih (obs ++ [o]) (recordObs θ st o.1 o.2) h1
    rw [← List.append_cons] at h2
    exact h2

theorem ScanInv_scanHistory (cs : List Commit) (θ : Int) :
    ScanInv θ (observations cs) (scanHistory cs θ) := by
  rw [scanHistory_eq]
  simpa using ScanInv_scanObs θ (observations cs) [] [] (ScanInv_nil θ)

/-! ## Persistence of collected records -/

theorem recordObs_persist (θ : Int) (st : List (Str × Nat)) (q : Str) (u : Nat)
    (p : Str) (s : Nat) (h : (p, s) ∈ st) :
    ∃ s', s ≤ s' ∧ (p, s') ∈ recordObs θ st q u := by
  rw [recordObs]
  by_cases hu : θ < (u : Int)
  · rw [if_pos hu]
    exact updateMax_persist st q u p s h
  · rw [if_neg hu]
    exact ⟨s, le_refl s, h⟩

theorem scanObs_persist (θ : Int) :
    ∀ (l st : List (Str × Nat)) (p : Str) (s : Nat), (p, s) ∈ st →
    ∃ s', s ≤ s' ∧ (p, s') ∈ scanObs θ st l := by
  intro l
  induction l with
  | nil =>
    intro st p s h
    exact ⟨s, le_refl s, h⟩
  | cons o l ih =>
    intro st p s h
    obtain ⟨s1, h1, h2⟩ := recordObs_persist θ st o.1 o.2 p s h
    obtain ⟨s2, h3, h4⟩ := ih (recordObs θ st o.1 o.2) p s1 h2
    exact ⟨s2, h1.trans h3, h4⟩

/-! ## Lifting scan facts to the returned record list -/

theorem find_perm (cs : List Commit) (mb : Int) :
    List.Perm (find_large_files_in_history cs mb)
      ((scanHistory cs (mb * (1024 * 1024))).map fun x =>
        (⟨x.1, sizeMBHundredths x.2⟩ : LargeFileRec)) := by
  simp only [find_large_files_in_history]
  exact sortLe_perm recGe _

theorem mem_find_of_mem_scan (cs : List Commit) (mb : Int) (p : Str) (s : Nat)
    (h : (p, s) ∈ scanHistory cs (mb * (1024 * 1024))) :
    p ∈ (find_large_files_in_history cs mb).map LargeFileRec.path := by
  have h1 : (⟨p, sizeMBHundredths s⟩ : LargeFileRec) ∈
      find_large_files_in_history cs mb :=
    (find_perm cs mb).mem_iff.2 (List.mem_map.2 ⟨(p, s), h, rfl⟩)
  exact List.mem_map.2 ⟨_, h1, rfl⟩

theorem find_paths_perm (cs : List Commit) (mb : Int) :
    List.Perm ((find_large_files_in_history cs mb).map LargeFileRec.path)
      ((scanHistory cs (mb * (1024 * 1024))).map Prod.fst) := by
  have h2 := (find_perm cs mb).map LargeFileRec.path
  simpa [List.map_map, Function.comp] using h2

theorem scanHistory_complete (cs : List Commit) (θ : Int) (p : Str) (s : Nat)
    (hobs : (p, s) ∈ observations cs) (hθ : θ < (s : Int)) :
    ∃ s', s ≤ s' ∧ (p, s') ∈ scanHistory cs θ := by
  have hp := (ScanInv_scanHistory cs θ).2.2 p s hobs hθ
  obtain ⟨x, hx, hpx⟩ := List.mem_map.1 hp
  obtain ⟨q, s'⟩ := x
  have hqp : q = p := hpx
  subst hqp
  have hmax := ((ScanInv_scanHistory cs θ).2.1 q s' hx).2.2
  exact ⟨s', hmax s hobs, hx⟩

theorem scanHistory_persist (cs1 cs2 : List Commit) (θ : Int) (p : Str)
    (s : Nat) (h : (p, s) ∈ scanHistory cs1 θ) :
    ∃ s', s ≤ s' ∧ (p, s') ∈ scanHistory (cs1 ++ cs2) θ := by
  have hsplit : scanHistory (cs1 ++ cs2) θ =
      scanObs θ (scanHistory cs1 θ) (observations cs2) := by
    rw [scanHistory_eq, scanHistory_eq, observations, List.flatMap_append,
      scanObs_append]
    rfl
  rw [hsplit]
  exact scanObs_persist θ (observations cs2) _ p s h

/-- A failed parent diff contributes exactly what an empty successful diff
does: the observation stream of a commit is unchanged when each failed
(`none`) parent comparison is replaced by an empty (`some []`) one. -/
theorem commitObs_defuse (c : Commit) :
    commitObs ⟨c.tree, c.diffs.map fun d? => some (d?.getD [])⟩ =
      commitObs c := by
  by_cases h : c.diffs = []
  · simp [commitObs, h]
  · have hne : c.diffs.map (fun d? => some (d?.getD [])) ≠ [] := by
      simp [h]
    simp only [commitObs, if_neg h, if_neg hne]
    rw [List.flatMap_map]
    rfl

/-! ## C9 equivalence at scan level -/

theorem scanHistory_defuse (cs1 : List Commit) (c : Commit) (cs2 : List Commit)
    (θ : Int) :
    scanHistory (cs1 ++ c :: cs2) θ =
      scanHistory
        (cs1 ++ (⟨c.tree, c.diffs.map fun d? => some (d?.getD [])⟩ : Commit)
          :: cs2) θ := by
  rw [scanHistory_eq, scanHistory_eq]
  congr 1
  simp only [observations, List.flatMap_append, List.flatMap_cons]
  rw [commitObs_defuse]

/-! ## Attributes-file text lemmas -/

theorem splitOnNl_ne_nil : ∀ l : Str, splitOnNl l ≠ [] := by
  intro l
  induction l with
  | nil => simp [splitOnNl]
  | cons c rest ih =>
    simp only [splitOnNl]
    by_cases h : c = '\n'
    · rw [if_pos h]
      simp
    · rw [if_neg h]
      cases hs : splitOnNl rest with
      | nil => simp
      | cons a as => simp

theorem splitOnNl_append : ∀ x y : Str,
    splitOnNl (x ++ '\n' :: y) = splitOnNl x ++ splitOnNl y := by
  intro x y
  induction x with
  | nil => rfl
  | cons c x ih =>
    simp only [List.cons_append, splitOnNl, List.append_eq]
    by_cases h : c = '\n'
    · rw [if_pos h, if_pos h, ih]
      rfl
    · rw [if_neg h, if_neg h, ih]
      cases hs : splitOnNl x with
      | nil => exact absurd hs (splitOnNl_ne_nil x)
      | cons a as => simp

theorem splitOnNl_no_nl : ∀ l : Str, '\n' ∉ l → splitOnNl l = [l] := by
  intro l
  induction l with
  | nil =>
    intro _
    rfl
  | cons c l ih =>
    intro h
    have hc : ¬ c = '\n' := fun hc => h (hc ▸ List.mem_cons_self c l)
    simp only [splitOnNl, if_neg hc]
    rw [ih fun hm => h (List.mem_cons_of_mem c hm)]

theorem parseExisting_append_nl (x y : Str) :
    parseExisting (x ++ '\n' :: y) = parseExisting x ++ parseExisting y := by
  simp [parseExisting, splitOnNl_append, List.filterMap_append]

theorem containsSub_append_right (p q pat : Str)
    (h : containsSub q pat = true) : containsSub (p ++ q) pat = true := by
  induction p with
  | nil => exact h
  | cons c p ih =>
    simp only [List.cons_append, containsSub, Bool.or_eq_true]
    exact Or.inr ih

/-- No occurrence of `pat` can straddle the boundary of `s ++ q` (nor sit
inside `s` or `q`) when `pat` is not a prefix of any of its own proper-suffix
continuations into `q`. -/
theorem isPrefixOf_append_eq_false (pat s q : Str)
    (hq : pat.isPrefixOf q = false)
    (hdrop : ∀ k, k < pat.length → 0 < k → (pat.drop k).isPrefixOf q = false)
    (hs : pat.isPrefixOf s = false) : pat.isPrefixOf (s ++ q) = false := by
  cases hsq : pat.isPrefixOf (s ++ q) with
  | false => rfl
  | true =>
    exfalso
    have hpre : pat <+: s ++ q := List.isPrefixOf_iff_prefix.1 hsq
    have heq : pat = (s ++ q).take pat.length := List.prefix_iff_eq_take.1 hpre
    by_cases hlen : pat.length ≤ s.length
    · have hps : pat = s.take pat.length := by
        conv_lhs => rw [heq]
        rw [List.take_append_eq_append_take, Nat.sub_eq_zero_of_le hlen,
          List.take_zero, List.append_nil]
      have hp : pat <+: s := List.prefix_iff_eq_take.2 hps
      have hb := List.isPrefixOf_iff_prefix.2 hp
      rw [hs] at hb
      exact Bool.false_ne_true hb
    · push_neg at hlen
      by_cases hs0 : s.length = 0
      · have hsnil : s = [] := List.length_eq_zero.1 hs0
        subst hsnil
        have hb : pat.isPrefixOf q = true := hsq
        rw [hq] at hb
        exact Bool.false_ne_true hb
      · have hpos : 0 < s.length := Nat.pos_of_ne_zero hs0
        have hdropeq : pat.drop s.length = q.take (pat.length - s.length) := by
          conv_lhs => rw [heq]
          rw [List.drop_take, List.drop_left]
        have hpref : pat.drop s.length <+: q := by
          rw [hdropeq]
          exact List.take_prefix _ q
        have hb := List.isPrefixOf_iff_prefix.2 hpref
        rw [hdrop s.length hlen hpos] at hb
        exact Bool.false_ne_true hb

theorem marker_not_prefix_attrSuffix : lfsMarker.isPrefixOf attrSuffix = false := by
  decide

theorem marker_drop_not_prefix_attrSuffix :
    ∀ k, k < lfsMarker.length → 0 < k →
      (lfsMarker.drop k).isPrefixOf attrSuffix = false := by
  decide

theorem marker_isPrefixOf_append_false (s : Str)
    (hs : lfsMarker.isPrefixOf s = false) :
    lfsMarker.isPrefixOf (s ++ attrSuffix) = false :=
  isPrefixOf_append_eq_false lfsMarker s attrSuffix
    marker_not_prefix_attrSuffix marker_drop_not_prefix_attrSuffix hs

theorem containsSub_false_cons (c : Char) (p : Str)
    (h : containsSub (c :: p) lfsMarker = false) :
    lfsMarker.isPrefixOf (c :: p) = false ∧ containsSub p lfsMarker = false := by
  simpa [containsSub] using h

theorem prefixBefore_append_attrSuffix : ∀ p : Str,
    containsSub p lfsMarker = false →
    prefixBefore (p ++ attrSuffix) lfsMarker = p ++ [' '] := by
  intro p
  induction p with
  | nil =>
    intro _
    decide
  | cons c p ih =>
    intro h
    obtain ⟨h1, h2⟩ := containsSub_false_cons c p h
    have h3 : lfsMarker.isPrefixOf ((c :: p) ++ attrSuffix) = false :=
      marker_isPrefixOf_append_false (c :: p) h1
    have h4 : ¬ (lfsMarker.isPrefixOf ((c :: p) ++ attrSuffix) = true) := by
      rw [h3]
      exact Bool.false_ne_true
    simp only [List.cons_append, prefixBefore, List.append_eq]
    rw [if_neg (by simpa using h4), ih h2]

theorem dropWhile_append_space : ∀ p : Str,
    (p ++ [' ']).dropWhile isPySpace =
      if p.dropWhile isPySpace = [] then []
      else p.dropWhile isPySpace ++ [' '] := by
  intro p
  induction p with
  | nil => rfl
  | cons c p ih =>
    simp only [List.cons_append, List.dropWhile_cons]
    by_cases hc : isPySpace c = true
    · rw [if_pos hc, if_pos hc, ih]
    · rw [if_neg hc, if_neg hc, if_neg (by simp)]
      rfl

theorem pyStrip_append_space (p : Str) : pyStrip (p ++ [' ']) = pyStrip p := by
  simp only [pyStrip, dropWhile_append_space]
  by_cases h : p.dropWhile isPySpace = []
  · rw [if_pos h, h]
  · rw [if_neg h, List.reverse_append]
    have hsp : isPySpace ' ' = true := rfl
    simp [List.dropWhile_cons, hsp]

theorem parseExisting_flat : ∀ t : List Str,
    (∀ p ∈ t, pyStrip p = p ∧ '\n' ∉ p ∧ containsSub p lfsMarker = false) →
    parseExisting (t.flatMap attrLine) = t := by
  intro t
  induction t with
  | nil =>
    intro _
    rfl
  | cons p t ih =>
    intro hclean
    obtain ⟨hstrip, hnl, hmark⟩ := hclean p (List.mem_cons_self p t)
    have hre : (p :: t).flatMap attrLine =
        (p ++ attrSuffix) ++ '\n' :: t.flatMap attrLine := by
      simp [attrLine, List.flatMap_cons, List.append_assoc]
    have hnl2 : '\n' ∉ p ++ attrSuffix := by
      intro hm
      rcases List.mem_append.1 hm with hm | hm
      · exact hnl hm
      · exact absurd hm (by decide)
    have hcont : containsSub (p ++ attrSuffix) lfsMarker = true :=
      containsSub_append_right p attrSuffix lfsMarker (by decide)
    have hline : parseExisting (p ++ attrSuffix) = [p] := by
      simp only [parseExisting, splitOnNl_no_nl _ hnl2, List.filterMap_cons,
        List.filterMap_nil]
      rw [if_pos hcont, prefixBefore_append_attrSuffix p hmark,
        pyStrip_append_space, hstrip]
    rw [hre, parseExisting_append_nl, hline,
      ih fun x hx => hclean x (List.mem_cons_of_mem p hx)]
    rfl

theorem mem_patternsToAdd (content : Str) (files : List Str) (p : Str) :
    p ∈ patternsToAdd content files ↔
      p ∈ newPatterns files ∧ p ∉ parseExisting content := by
  simp only [patternsToAdd, mem_sortLe, List.mem_filter, decide_eq_true_eq]

theorem patternsToAdd_clean (content : Str) (files : List Str)
    (hclean : ∀ p ∈ newPatterns files,
      pyStrip p = p ∧ '\n' ∉ p ∧ containsSub p lfsMarker = false) :
    ∀ p ∈ patternsToAdd content files,
      pyStrip p = p ∧ '\n' ∉ p ∧ containsSub p lfsMarker = false :=
  fun p hp => hclean p ((mem_patternsToAdd content files p).1 hp).1

theorem parseExisting_create_gitattributes (content : Str) (files : List Str)
    (hclean : ∀ p ∈ newPatterns files,
      pyStrip p = p ∧ '\n' ∉ p ∧ containsSub p lfsMarker = false) :
    parseExisting (create_gitattributes content files) =
      parseExisting content ++ patternsToAdd content files := by
  by_cases h : patternsToAdd content files = []
  · simp [create_gitattributes, h]
  · by_cases hc : content = []
    · subst hc
      have hres : create_gitattributes [] files =
          (patternsToAdd [] files).flatMap attrLine := by
        simp [create_gitattributes, h]
      rw [hres, parseExisting_flat _ (patternsToAdd_clean [] files hclean)]
      rfl
    · have hres : create_gitattributes content files =
          content ++ '\n' :: (patternsToAdd content files).flatMap attrLine := by
        simp [create_gitattributes, h, hc]
      rw [hres, parseExisting_append_nl,
        parseExisting_flat _ (patternsToAdd_clean content files hclean)]

theorem create_gitattributes_of_nothing_new (content : Str) (files : List Str)
    (h : patternsToAdd content files = []) :
    create_gitattributes content files = content := by
  simp [create_gitattributes, h]

theorem create_gitattributes_idem (content : Str) (files : List Str)
    (hclean : ∀ p ∈ newPatterns files,
      pyStrip p = p ∧ '\n' ∉ p ∧ containsSub p lfsMarker = false) :
    create_gitattributes (create_gitattributes content files) files =
      create_gitattributes content files := by
  have h2 : patternsToAdd (create_gitattributes content files) files = [] := by
    have hfil : (newPatterns files).filter
        (fun p => decide (p ∉ parseExisting (create_gitattributes content files)))
        = [] := by
      rw [List.filter_eq_nil_iff]
      intro p hp
      simp only [decide_eq_true_eq, not_not]
      rw [parseExisting_create_gitattributes content files hclean]
      by_cases hold : p ∈ parseExisting content
      · exact List.mem_append_left _ hold
      · exact List.mem_append_right _ ((mem_patternsToAdd content files p).2 ⟨hp, hold⟩)
    rw [patternsToAdd, hfil]
    rfl
  exact create_gitattributes_of_nothing_new _ files h2

theorem patternsToAdd_toFinset (content : Str) (files : List Str) :
    (patternsToAdd content files).toFinset =
      (files.flatMap candidates).toFinset \ (parseExisting content).toFinset := by
  ext p
  simp [mem_patternsToAdd, newPatterns, Finset.mem_sdiff, List.mem_toFinset,
    List.mem_dedup]

/-! ## Spec-side candidate description (for C1) -/

/-- Spec-side candidate-pattern set, following spec.md §4.2: if the filename
has an extension, a global extension pattern `*.<ext>` plus a
directory-scoped extension pattern `<directory>/*.<ext>` when the directory
is non-empty; if it has no extension, exactly one candidate, the literal
path (which is directory-prefixed whenever the record is not at root). -/
def candidatesSpec (p : Str) : Finset Str :=
  let directory := pathDirname p
  let filename := pathBasename p
  if splitextExt filename ≠ [] then
    let e := (splitextExt filename).dropWhile (· = '.')
    if directory ≠ [] then
      {'*' :: '.' :: e, directory ++ '/' :: '*' :: '.' :: e}
    else {'*' :: '.' :: e}
  else {p}

/-! ## Concrete inputs used by witnesses and counterexamples -/

def rootCommitA : Commit := ⟨[⟨"blob".toList, "f".toList, 3000000⟩], []⟩

def diffCommitA : Commit :=
  ⟨[], [some [⟨some ⟨"f".toList, 5000000⟩, none⟩]]⟩

def historyWitnessCommits : List Commit := [rootCommitA, diffCommitA]

def boundaryCommit : Commit := ⟨[⟨"blob".toList, "x".toList, 1048576⟩], []⟩

def c4w : Commit := ⟨[⟨"blob".toList, "y".toList, 2000000⟩], []⟩

def c6commit : Commit :=
  ⟨[⟨"blob".toList, "a".toList, 2097152⟩,
    ⟨"blob".toList, "b".toList, 2097153⟩], []⟩

def c7commit : Commit := ⟨[⟨"blob".toList, "big".toList, 5⟩], []⟩

def c9root : Commit := ⟨[⟨"blob".toList, "a".toList, 2000000⟩], []⟩

def c9fail : Commit :=
  ⟨[], [none, some [⟨none, some ⟨"b".toList, 3000000⟩⟩]]⟩

def capPath (i : Nat) : Str :=
  [Char.ofNat (65 + i / 10), Char.ofNat (65 + i % 10)]

def capListing : List ObjListEntry :=
  (List.range 101).map fun i => ⟨[], 2000000000 - i, capPath i⟩

/-! ## Claim theorems -/

/-- C1: for every ObjectRecord path handed to the pattern synthesizer, the
derived candidate patterns are exactly those the spec describes: with an
extension, the global pattern `*.<ext>` plus the directory-scoped pattern
`<directory>/*.<ext>` when the directory is non-empty; without an extension,
exactly the literal path. -/
theorem candidates_match_spec (p : Str) :
    (candidates p).toFinset = candidatesSpec p := by
  simp only [candidates, candidatesSpec]
  by_cases h1 : splitextExt (pathBasename p) ≠ []
  · rw [if_pos h1, if_pos h1]
    by_cases h2 : pathDirname p ≠ []
    · rw [if_pos h2, if_pos h2]
      simp
    · rw [if_neg h2, if_neg h2]
      simp
  · rw [if_neg h1, if_neg h1]
    simp

/-- C2 (amended): the pattern set appended in one synthesis run is exactly
the derived candidate set minus the patterns already present in the file
(unconditionally); and a second run on the same scan result appends nothing
provided every derived pattern is strip-invariant, single-line, and free of
the `filter=lfs` substring — conditions every ordinary path satisfies but
which fail, e.g., for a path with a leading space (see the
counterexample). -/
theorem create_gitattributes_delta_and_idem (content : Str) (files : List Str) :
    (patternsToAdd content files).toFinset =
      (files.flatMap candidates).toFinset \ (parseExisting content).toFinset ∧
    ((∀ p ∈ newPatterns files,
        pyStrip p = p ∧ '\n' ∉ p ∧ containsSub p lfsMarker = false) →
      create_gitattributes (create_gitattributes content files) files =
        create_gitattributes content files) :=
  ⟨patternsToAdd_toFinset content files,
   fun hclean => create_gitattributes_idem content files hclean⟩

theorem create_gitattributes_delta_and_idem_witness :
    (patternsToAdd [] ["x.zip".toList]).toFinset =
      (["x.zip".toList].flatMap candidates).toFinset \
        (parseExisting []).toFinset ∧
    create_gitattributes (create_gitattributes [] ["x.zip".toList])
        ["x.zip".toList] =
      create_gitattributes [] ["x.zip".toList] :=
  ⟨(create_gitattributes_delta_and_idem [] ["x.zip".toList]).1,
   (create_gitattributes_delta_and_idem [] ["x.zip".toList]).2 (by decide)⟩

/-- C2 counterexample: with the single extension-less path `" a"` (leading
space), the derived literal pattern is written and then read back as its
stripped form `"a"`, so a second run on the same scan result appends the
same line again — idempotence fails as claimed. -/
theorem create_gitattributes_not_idem :
    create_gitattributes (create_gitattributes [] [[' ', 'a']]) [[' ', 'a']] ≠
      create_gitattributes [] [[' ', 'a']] := by decide

/-- C3: a history-mode scan keeps at most one record per path, and the
stored size of every record is the maximum size ever observed for that path
across root-commit tree entries and per-parent diff entries. -/
theorem history_scan_unique_path_max (cs : List Commit) (mb : Int) :
    ((find_large_files_in_history cs mb).map LargeFileRec.path).Nodup ∧
    ∀ p s, (p, s) ∈ scanHistory cs (mb * (1024 * 1024)) →
      (p, s) ∈ observations cs ∧
        ∀ s', (p, s') ∈ observations cs → s' ≤ s := by
  constructor
  · exact (find_paths_perm cs mb).nodup_iff.2
      (ScanInv_scanHistory cs (mb * (1024 * 1024))).1
  · intro p s h
    obtain ⟨hobs, _, hmax⟩ :=
      (ScanInv_scanHistory cs (mb * (1024 * 1024))).2.1 p s h
    exact ⟨hobs, hmax⟩

theorem history_scan_unique_path_max_witness :
    ("f".toList, 5000000) ∈ observations historyWitnessCommits ∧
    ∀ s', ("f".toList, s') ∈ observations historyWitnessCommits →
      s' ≤ 5000000 :=
  (history_scan_unique_path_max historyWitnessCommits 1).2
    "f".toList 5000000 (by decide)

/-- C4 (amended): every stored record strictly exceeds the byte threshold
t·2^20 (hence its size_bytes/2^20 is at least t), and every observed file
whose size strictly exceeds t·2^20 is represented in the returned list; a
file of exactly t·2^20 bytes is omitted because the scanner compares with
strict `>` (see the counterexample). -/
theorem scan_threshold_strict (cs : List Commit) (mb : Int) :
    (∀ p s, (p, s) ∈ scanHistory cs (mb * (1024 * 1024)) →
      mb * (1024 * 1024) < (s : Int)) ∧
    (∀ p s, (p, s) ∈ observations cs → mb * (1024 * 1024) < (s : Int) →
      ∃ s', s ≤ s' ∧ (p, s') ∈ scanHistory cs (mb * (1024 * 1024)) ∧
        p ∈ (find_large_files_in_history cs mb).map LargeFileRec.path) := by
  constructor
  · intro p s h
    exact ((ScanInv_scanHistory cs (mb * (1024 * 1024))).2.1 p s h).2.1
  · intro p s hobs hθ
    obtain ⟨s', h1, h2⟩ := scanHistory_complete cs (mb * (1024 * 1024)) p s hobs hθ
    exact ⟨s', h1, h2, mem_find_of_mem_scan cs mb p s' h2⟩

theorem scan_threshold_strict_witness :
    ∃ s', 2000000 ≤ s' ∧
      ("y".toList, s') ∈ scanHistory [c4w] (1 * (1024 * 1024)) ∧
      "y".toList ∈ (find_large_files_in_history [c4w] 1).map LargeFileRec.path :=
  (scan_threshold_strict [c4w] 1).2 "y".toList 2000000 (by decide) (by decide)

/-- C4 counterexample: at threshold 1 MB, a file of exactly 2^20 bytes is
observed but the scan returns nothing — the claimed inclusion of files of
exactly t·2^20 bytes fails. -/
theorem exact_threshold_file_omitted :
    ("x".toList, 1048576) ∈ observations [boundaryCommit] ∧
    find_large_files_in_history [boundaryCommit] 1 = [] := by decide

/-- C6 (amended): the returned list is ordered by non-increasing rounded
size_mb — the key actually sorted on — and is a permutation of the
insertion-ordered per-path records; neither size_bytes order nor a path tie
break is guaranteed. -/
theorem scan_result_sorted_by_rounded_mb (cs : List Commit) (mb : Int) :
    (find_large_files_in_history cs mb).Pairwise
      (fun a b => recGe a b = true) ∧
    List.Perm (find_large_files_in_history cs mb)
      ((scanHistory cs (mb * (1024 * 1024))).map fun x =>
        (⟨x.1, sizeMBHundredths x.2⟩ : LargeFileRec)) := by
  constructor
  · simp only [find_large_files_in_history]
    exact sortLe_pairwise recGe recGe_total recGe_trans _
  · exact find_perm cs mb

/-- C6 counterexample: path `b` has the strictly larger size_bytes (2097153
vs 2097152) yet is returned after `a`: both sizes round to 2.00 MB and the
stable sort keeps insertion order, so the result is not sorted descending by
size_bytes with path tie-breaking. -/
theorem scan_result_not_sorted_by_bytes :
    scanHistory [c6commit] (1 * (1024 * 1024)) =
      [("a".toList, 2097152), ("b".toList, 2097153)] ∧
    find_large_files_in_history [c6commit] 1 =
      [⟨"a".toList, 200⟩, ⟨"b".toList, 200⟩] := by decide

/-- C7 (amended): the scanner performs no threshold validation; with any
non-positive threshold it proceeds and every observed object of positive
size appears in the result. -/
theorem nonpositive_threshold_scans (cs : List Commit) (mb : Int)
    (hmb : mb ≤ 0) (p : Str) (s : Nat)
    (hobs : (p, s) ∈ observations cs) (hs : 0 < s) :
    p ∈ (find_large_files_in_history cs mb).map LargeFileRec.path := by
  have hθ : mb * (1024 * 1024) < (s : Int) := by omega
  obtain ⟨s', _, h2⟩ :=
    scanHistory_complete cs (mb * (1024 * 1024)) p s hobs hθ
  exact mem_find_of_mem_scan cs mb p s' h2

theorem nonpositive_threshold_scans_witness :
    "big".toList ∈
      (find_large_files_in_history [c7commit] 0).map LargeFileRec.path :=
  nonpositive_threshold_scans [c7commit] 0 (by decide) "big".toList 5
    (by decide) (by decide)

/-- C7 counterexample: threshold 0 is non-positive, yet the scan is not
rejected with InvalidThreshold: it runs and returns an ObjectRecord. -/
theorem nonpositive_threshold_not_rejected :
    find_large_files_in_history [c7commit] 0 = [⟨"big".toList, 0⟩] := by decide

/-- C8 (amended): a missing `.git` directory at the repository root does not
abort construction: `GitLFS.__init__` always completes, and it logs the
may-not-be-a-valid-repository warning exactly when `.git` is absent. -/
theorem gitlfs_init_never_aborts (dotGitExists : Bool) :
    (gitlfs_init_check dotGitExists).constructed = true ∧
    ((gitlfs_init_check dotGitExists).warnedInvalidRepo = true ↔
      dotGitExists = false) := by
  cases dotGitExists <;> simp [gitlfs_init_check]

/-- C8 counterexample: with no VCS metadata directory present, the library
still constructs successfully (merely warning), contradicting the claimed
InvalidRepository failure and immediate abort. -/
theorem gitlfs_init_missing_repo_constructs :
    (gitlfs_init_check false).constructed = true ∧
    (gitlfs_init_check false).warnedInvalidRepo = true := by decide

/-- C9: a failure to diff one commit against one parent behaves exactly like
an empty successful comparison — only that parent comparison is skipped and
the scan continues with the remaining parents and commits — and every record
collected before the failure persists, with at least its collected size,
into the final scan state. -/
theorem diff_failure_skips_only_that_parent (cs1 : List Commit) (c : Commit)
    (cs2 : List Commit) (θ : Int) :
    scanHistory (cs1 ++ c :: cs2) θ =
      scanHistory
        (cs1 ++ (⟨c.tree, c.diffs.map fun d? => some (d?.getD [])⟩ : Commit)
          :: cs2) θ ∧
    ∀ p s, (p, s) ∈ scanHistory cs1 θ →
      ∃ s', s ≤ s' ∧ (p, s') ∈ scanHistory (cs1 ++ c :: cs2) θ :=
  ⟨scanHistory_defuse cs1 c cs2 θ,
   fun p s h => scanHistory_persist cs1 (c :: cs2) θ p s h⟩

theorem diff_failure_skips_only_that_parent_witness :
    ∃ s', 2000000 ≤ s' ∧
      ("a".toList, s') ∈ scanHistory ([c9root] ++ c9fail :: []) 1048576 :=
  (diff_failure_skips_only_that_parent [c9root] c9fail [] 1048576).2
    "a".toList 2000000 (by decide)

/-- C10: without the fast external sizer, the library's fallback pipeline
keeps only the 100 largest blob lines (`head -n 100`), so every scan returns
at most 100 records; concretely, with 101 blobs all above a 1 MB threshold,
the 101st-largest qualifies by size but is omitted from the result. -/
theorem fallback_returns_at_most_100 :
    (∀ (listing : List ObjListEntry) (mb : Int),
      (find_large_files listing mb).length ≤ 100) ∧
    (find_large_files capListing 1).length = 100 ∧
    (1 * (1024 * 1024) : Int) ≤ ((2000000000 - 100 : Nat) : Int) ∧
    ((find_large_files capListing 1).map FoundFile.path).contains
      (capPath 100) = false := by
  refine ⟨?_, by decide, by decide, by decide⟩
  intro listing mb
  have h1 : (find_large_files listing mb).length ≤
      ((sortLe entryGe listing).take 100).length := by
    simp only [find_large_files]
    exact List.length_filterMap_le _ _
  exact h1.trans (List.length_take_le 100 _)

/-- C5 (amended): one synthesis run appends exactly the sorted new-pattern
block — one exact line `<pattern> filter=lfs diff=lfs merge=lfs -text` per
pattern, in lexicographically sorted order — to the end of the file, leaving
every pre-existing byte unchanged (the old content is a prefix of the new
content); the block is preceded by a newline separator if and only if the
file is non-empty, regardless of whether it already ends in a newline (see
the counterexample). -/
theorem create_gitattributes_append_exact (content : Str) (files : List Str) :
    create_gitattributes content files =
      content ++
        (if patternsToAdd content files = [] then []
         else (if content = [] then [] else ['\n']) ++
           (patternsToAdd content files).flatMap attrLine) ∧
    (patternsToAdd content files).Pairwise (fun a b => pathLe a b = true) ∧
    content <+: create_gitattributes content files := by
  refine ⟨?_, ?_, ?_⟩
  · by_cases h : patternsToAdd content files = []
    · simp [create_gitattributes, h]
    · simp [create_gitattributes, h, List.append_assoc]
  · simp only [patternsToAdd]
    exact sortLe_pairwise pathLe pathLe_total pathLe_trans _
  · by_cases h : patternsToAdd content files = []
    · rw [create_gitattributes_of_nothing_new content files h]
    · have hsh : create_gitattributes content files =
          content ++ ((if content = [] then [] else ['\n']) ++
            (patternsToAdd content files).flatMap attrLine) := by
        simp [create_gitattributes, h, List.append_assoc]
      rw [hsh]
      exact List.prefix_append content _

/-- C5 counterexample: the attributes file already ends in a newline, yet the
merge still writes a separator newline first (leaving a blank line), so the
separator is not conditional on the file lacking a trailing newline. -/
theorem separator_written_despite_trailing_newline :
    create_gitattributes (attrLine "*.mp4".toList) ["x.zip".toList] =
      attrLine "*.mp4".toList ++ '\n' :: attrLine "*.zip".toList ∧
    (attrLine "*.mp4".toList).getLast? = some '\n' ∧
    attrLine "*.mp4".toList ≠ [] := by decide
